import Mathlib

/-!
Verification development for the nikamap repository.

This file gives a shallow embedding of the algorithmic parts of
`nikamap/utils.py` (position generators, synthetic-map noise model,
the circular Gaussian PSF model and a small rounding helper) and of the
jackknife averaging specification, together with theorems settling the
frozen claims about them.

Conventions of the embedding:
* machine floats are modelled by `ℚ` where the code only does ring
  operations and comparisons, and by `ℝ` where it uses `exp`, `sqrt`
  or non-integer powers;
* `NaN` propagation is modelled by `Option`;
* numpy's `sqrt(d) < t` comparisons on squared distances are modelled
  by the decidable `sqrtLtB` on the squared quantities, justified by
  the bridge lemma `sqrtLtB_eq_sqrt_lt`;
* randomness (uniform draws, wobble offsets, jackknife signs) is passed
  in explicitly as data, quantified universally in the theorems;
* Python `assert` failures are modelled by `Except.error`.
-/

namespace Nikamap

/-- Embedding of `_round_up_to_odd_integer` from `nikamap/utils.py`:
`i = ceil(value)`, return `i + 1` if `i` is even, else `i`. -/
def round_up_to_odd_integer (value : ℚ) : ℤ :=
  let i := ⌈value⌉
  if i % 2 = 0 then i + 1 else i

/-- Embedding of `CircularGaussianPSF.evaluate` from `nikamap/utils.py`:
`flux * np.exp(-((x - x_0)**2 + (y - y_0)**2) / (2*sigma**2))`. -/
noncomputable def CircularGaussianPSF_evaluate (x y flux x_0 y_0 sigma : ℝ) : ℝ :=
  flux * Real.exp (-((x - x_0) ^ 2 + (y - y_0) ^ 2) / (2 * sigma ^ 2))

/-! ### Position generators (`pos_uniform`, `pos_gridded`, `pos_list`) -/

/-- Squared Euclidean pixel distance between two positions; the source
computes `np.sqrt` of this quantity before comparing with `dist_threshold`. -/
def distSq (p q : ℚ × ℚ) : ℚ := (p.1 - q.1) ^ 2 + (p.2 - q.2) ^ 2

/-- Decides `Real.sqrt d2 < t` (the comparison the source performs on a
nonnegative squared distance `d2`) without leaving `ℚ`;
see `sqrtLtB_eq_sqrt_lt`. -/
def sqrtLtB (d2 t : ℚ) : Bool := decide (0 ≤ t) && decide (d2 < t ^ 2)

/-- `np.argmin` over one row of the distance matrix together with the minimal
value, where `none` stands for the `np.inf` placed on the diagonal; on ties
the first index wins, as for `np.argmin`. -/
def minEntry : List (Option ℚ) → Option (Nat × ℚ)
  | [] => none
  | none :: rest => (minEntry rest).map fun b => (b.1 + 1, b.2)
  | some v :: rest =>
    match minEntry rest with
    | none => some (0, v)
    | some b => if b.2 < v then some (b.1 + 1, b.2) else some (0, v)

/-- Row `i` of the pairwise squared-distance matrix of `pos`, with `none`
(`np.inf`, from `dist[i, i] = np.inf`) at the diagonal entry. -/
def distRow (pos : List (ℚ × ℚ)) (i : Nat) : List (Option ℚ) :=
  (List.range pos.length).map fun j =>
    if j = i then none else some (distSq (pos.getD i (0, 0)) (pos.getD j (0, 0)))

/-- `arg_min_dist = np.argmin(dist, 1)` of `pos_uniform`. -/
def argMins (pos : List (ℚ × ℚ)) : List Nat :=
  (List.range pos.length).map fun i => ((minEntry (distRow pos i)).map Prod.fst).getD 0

/-- `dist_mask = min_dist < dist_threshold` of `pos_uniform` (recomputed at
the head of each pass of the inner loop). -/
def initMask (t : ℚ) (pos : List (ℚ × ℚ)) : List Bool :=
  (List.range pos.length).map fun i =>
    match minEntry (distRow pos i) with
    | none => false
    | some b => sqrtLtB b.2 t

/-- The sequential un-mask loop of `pos_uniform`:
`for idx, arg_min in enumerate(arg_min_dist): if dist_mask[idx]:
dist_mask[arg_min] = False`, scanning the index list in order while mutating
the mask. -/
def unmaskScan (am : List Nat) : List Nat → List Bool → List Bool
  | [], mask => mask
  | idx :: rest, mask =>
    unmaskScan am rest (if mask.getD idx false then mask.set (am.getD idx 0) false else mask)

/-- The whole enumerate-and-unmask pass over the mask. -/
def unmaskAll (am : List Nat) (mask : List Bool) : List Bool :=
  unmaskScan am (List.range mask.length) mask

/-- The value of `dist_mask` at the end of one pass of the inner loop. -/
def finalMask (t : ℚ) (pos : List (ℚ × ℚ)) : List Bool :=
  unmaskAll (argMins pos) (initMask t pos)

/-- `pos = pos[~dist_mask]`: keep the entries whose mask bit is `false`. -/
def applyMask (pos : List (ℚ × ℚ)) (mask : List Bool) : List (ℚ × ℚ) :=
  ((pos.zip mask).filter fun pm => !pm.2).map Prod.fst

/-- One pass of the `while not np.all(~dist_mask)` loop of `pos_uniform`:
recompute the mask, unmask the partner of each still-masked index, filter. -/
def removePass (t : ℚ) (pos : List (ℚ × ℚ)) : List (ℚ × ℚ) :=
  applyMask pos (finalMask t pos)

/-- The full minimum-distance conflict-resolution loop of `pos_uniform`.
The source's loop guard `not np.all(~dist_mask)` holds exactly when the pass
strictly shrank the candidate list (`finalMask_any_iff_lt`), which is the
guard used here so that termination is structural in the list length. -/
def resolveClose (t : ℚ) (pos : List (ℚ × ℚ)) : List (ℚ × ℚ) :=
  if h : (removePass t pos).length < pos.length then resolveClose t (removePass t pos)
  else removePass t pos
termination_by pos.length
decreasing_by exact h

/-- `np.random.uniform(within[0], within[1], (nsources, 2)) * shape - 0.5`:
scale a normalized position to (sub-)pixel coordinates. -/
def scalePos (shape : ℚ × ℚ) (p : ℚ × ℚ) : ℚ × ℚ :=
  (p.1 * shape.1 - 1 / 2, p.2 * shape.2 - 1 / 2)

/-- `pos_idx = np.floor(pos + 0.5).astype(int)`: the integer pixel index a
position is tested against in the exclusion mask. -/
def maskIdx (p : ℚ × ℚ) : ℤ × ℤ := (⌊p.1 + 1 / 2⌋, ⌊p.2 + 1 / 2⌋)

/-- `if mask is not None: pos = pos[~mask[pos_idx]]`: the exclusion-mask
filter shared by the three generators; the 2-d boolean mask array is
modelled as a predicate on integer pixel indices. -/
def maskFilter (maskP : Option ((ℤ × ℤ) → Bool)) (pos : List (ℚ × ℚ)) : List (ℚ × ℚ) :=
  match maskP with
  | none => pos
  | some mp => pos.filter fun p => !mp (maskIdx p)

/-- The Boolean the exclusion-mask filter tests (false when no mask). -/
def maskPred (maskP : Option ((ℤ × ℤ) → Bool)) (p : ℚ × ℚ) : Bool :=
  match maskP with
  | none => false
  | some mp => mp (maskIdx p)

/-- The outer draw-and-filter loop of `pos_uniform`; `draws` supplies the
successive outcomes of the uniform sampling (normalized, before scaling) and
`fuel` is the number of remaining allowed iterations (initially `max_loop`).
Returns the accumulated position list and the number of iterations used. -/
def pos_uniform_loop (t : ℚ) (nsources : Nat) (shape : ℚ × ℚ)
    (maskP : Option ((ℤ × ℤ) → Bool)) :
    List (List (ℚ × ℚ)) → Nat → List (ℚ × ℚ) → List (ℚ × ℚ) × Nat
  | _, 0, pos => (pos, 0)
  | draws, fuel + 1, pos =>
    if pos.length < nsources then
      let pos1 := maskFilter maskP (pos ++ (draws.headD []).map (scalePos shape))
      let pos2 := (resolveClose t pos1).take nsources
      let r := pos_uniform_loop t nsources shape maskP draws.tail fuel pos2
      (r.1, r.2 + 1)
    else (pos, 0)

/-- Embedding of `pos_uniform` from `nikamap/utils.py`.  Internally positions
are `(y, x)` pairs; the function returns `(pos[:, 1], pos[:, 0])`, i.e. the
`x` list then the `y` list, together with the Boolean of the
`i_loop == max_loop and len(pos) < nsources` warning. -/
def pos_uniform (t : ℚ) (nsources : Nat) (shape : ℚ × ℚ)
    (maskP : Option ((ℤ × ℤ) → Bool)) (maxLoop : Nat)
    (draws : List (List (ℚ × ℚ))) : (List ℚ × List ℚ) × Bool :=
  let r := pos_uniform_loop t nsources shape maskP draws maxLoop []
  ((r.1.map Prod.snd, r.1.map Prod.fst),
    decide (r.2 = maxLoop) && decide (r.1.length < nsources))

/-- The square grid of normalized `(y, x)` positions laid out by
`pos_gridded`: `np.indices([sq, sq]) * within_step + within[0] + within_step`
flattened in row-major order. -/
def gridRaw (sq : Nat) (w : ℚ × ℚ) : List (ℚ × ℚ) :=
  let step := (w.2 - w.1) / (sq + 1)
  (List.range sq).flatMap fun (i : ℕ) => (List.range sq).map fun (j : ℕ) =>
    (w.1 + (i + 1) * step, w.1 + (j + 1) * step)

/-- Embedding of `pos_gridded` from `nikamap/utils.py`; the wobble offsets
(outcomes of `np.random.normal`) are supplied by `wobbleOff`, indexed by the
flattened grid position.  Python `assert` failures are `Except.error`;
the result carries the `(x, y)` lists and the under-fill warning Boolean. -/
def pos_gridded (nsources : Nat) (shape : ℚ × ℚ) (w : ℚ × ℚ)
    (maskP : Option ((ℤ × ℤ) → Bool)) (wobble : Bool) (wobbleOff : Nat → ℚ × ℚ) :
    Except String ((List ℚ × List ℚ) × Bool) :=
  let sq := Nat.sqrt nsources
  if sq * sq ≠ nsources then .error "nsources must be a squared number"
  else if ¬ 1 < nsources then .error "nsouces can not be 1"
  else
    let grid := gridRaw sq w
    let pos0 := if wobble then
        grid.enum.map fun ip => (ip.2.1 + (wobbleOff ip.1).1, ip.2.2 + (wobbleOff ip.1).2)
      else grid
    let pos1 := pos0.filter fun p =>
      decide (0 ≤ p.1) && decide (p.1 ≤ 1) && decide (0 ≤ p.2) && decide (p.2 ≤ 1)
    let pos2 := maskFilter maskP (pos1.map (scalePos shape))
    .ok ((pos2.map Prod.snd, pos2.map Prod.fst), decide (pos2.length < nsources))

/-- The in-`within` test of `pos_list`: component-wise
`pos >= limits[0]` and `pos <= limits[1] - 1` with
`limits = shape * np.asarray(within)[:, np.newaxis]` (`p` is a `(y, x)` row). -/
def withinB (shape : ℚ × ℚ) (w : ℚ × ℚ) (p : ℚ × ℚ) : Bool :=
  decide (w.1 * shape.1 ≤ p.1) && decide (p.1 ≤ w.2 * shape.1 - 1) &&
  decide (w.1 * shape.2 ≤ p.2) && decide (p.2 ≤ w.2 * shape.2 - 1)

/-- Embedding of `pos_list` from `nikamap/utils.py`: positions are supplied
as `x_mean`/`y_mean` (optional, mirroring Python `None`), stacked into
`(y, x)` rows, filtered by `within` and the exclusion mask, and returned as
`(x, y)` lists with the under-fill warning Boolean. -/
def pos_list (nsources : Nat) (shape : ℚ × ℚ) (w : ℚ × ℚ)
    (maskP : Option ((ℤ × ℤ) → Bool)) (x_mean y_mean : Option (List ℚ)) :
    Except String ((List ℚ × List ℚ) × Bool) :=
  match x_mean, y_mean with
  | none, _ => .error "you must provide x_mean and y_mean"
  | some _, none => .error "you must provide x_mean and y_mean"
  | some xs, some ys =>
    if xs.length ≠ ys.length then .error "x_mean and y_mean must have the same dimension"
    else if ¬ nsources ≤ xs.length then .error "x_mean must contain at least nsources sources"
    else
      let pos := ys.zip xs
      let pos1 := pos.filter (withinB shape w)
      let pos2 := maskFilter maskP pos1
      .ok ((pos2.map Prod.snd, pos2.map Prod.fst), decide (pos2.length < nsources))

/-! ### Synthetic map builder (`fake_data`) noise model -/

/-- The `e_data is not None` branch of `fake_data`: the mask is set where the
supplied uncertainty is NaN (`Option.isNone` here) and the exposure time is
back-derived per pixel as `(e_data / NEFD)**(-1/0.5)`.  Returns
`(mask, time)` for one pixel. -/
noncomputable def fakeData_from_e (NEFD : ℝ) (e : Option ℝ) : Bool × Option ℝ :=
  (e.isNone, e.map fun ev => (ev / NEFD) ^ ((-1 : ℝ) / 0.5))

/-- The centered-Gaussian exposure-time footprint of `fake_data` (per pixel,
with `g2s` the FWHM-to-sigma constant and `tf` the `time_fwhm` parameter):
`np.exp(-((x - shape[1]/2)**2 / (2*(g2s*tf*shape[1])**2) +
(y - shape[0]/2)**2 / (2*(g2s*tf*shape[0])**2)))`. -/
noncomputable def gaussTimeRaw (shape : ℕ × ℕ) (tf g2s : ℝ) (x y : ℝ) : ℝ :=
  Real.exp (-((x - (shape.2 : ℝ) / 2) ^ 2 / (2 * (g2s * tf * (shape.2 : ℝ)) ^ 2) +
      (y - (shape.1 : ℝ) / 2) ^ 2 / (2 * (g2s * tf * (shape.1 : ℝ)) ^ 2)))

/-- The exposure-time threshold of `fake_data`, `1 * u.s`, expressed in the
hours unit carried by the generated `time` map. -/
noncomputable def timeThreshold : ℝ := 1 / 3600

/-- The generated-footprint branch of `fake_data`, per pixel: mask where
`time < 1 * u.s`, set the masked time to NaN (`none`), then derive the
uncertainty `NEFD * time**(-0.5)` (NaN-propagating).  Returns
`(mask, time, e_data)`. -/
noncomputable def fakeData_gen (NEFD raw : ℝ) : Bool × Option ℝ × Option ℝ :=
  let mask := decide (raw < timeThreshold)
  let time : Option ℝ := if raw < timeThreshold then none else some raw
  (mask, time, time.map fun tv => NEFD * tv ^ (-(0.5) : ℝ))

/-! ### Jackknife averaging (spec-modelled) -/

/-- Modelled from the spec: the per-pixel uncertainty of the jackknife
weighted average produced by `analysis.py` (absent from the sources),
`sigma_avg = (sum over i of 1/sigma_i^2)^(-1/2)`. -/
noncomputable def jk_uncertainty (sigmas : List ℝ) : ℝ :=
  (Real.sqrt ((sigmas.map fun s => 1 / s ^ 2).sum))⁻¹

/-- Modelled from the spec: one per-pixel jackknife draw of `analysis.py`
(absent from the sources): the inverse-variance-weighted average of
`sign_i * data_i` paired with the combined uncertainty.  `maps` lists the
`(data, sigma)` values of one pixel across the input maps. -/
noncomputable def jk_average (maps : List (ℝ × ℝ)) (signs : List ℝ) : ℝ × ℝ :=
  (((maps.zip signs).map fun ms => ms.2 * ms.1.1 / ms.1.2 ^ 2).sum /
      ((maps.map fun m => 1 / m.2 ^ 2).sum),
    (Real.sqrt ((maps.map fun m => 1 / m.2 ^ 2).sum))⁻¹)

/-- Modelled from the spec: the input-validation stage of `jackknife` in
`analysis.py` (absent from the sources): each unreadable file (`none`)
produces one warning and is discarded, and an assertion-style error is
raised unless at least two valid maps remain.  Returns the outcome and the
number of warnings emitted. -/
def jackknife_setup {α : Type} (files : List (Option α)) : Except String (List α) × Nat :=
  let valid := files.filterMap id
  (if 2 ≤ valid.length then .ok valid
    else .error "jackknife needs at least two valid maps",
    (files.filter fun f => f.isNone).length)

/-! ### Theorems -/

/-- C10: for every input `value`, `_round_up_to_odd_integer` returns an odd
integer `i` with `value ≤ i ≤ ⌈value⌉ + 1`; it returns `⌈value⌉` when that is
odd and `⌈value⌉ + 1` when it is even. -/
theorem round_up_to_odd_integer_spec (value : ℚ) :
    Odd (round_up_to_odd_integer value) ∧
    (value : ℚ) ≤ (round_up_to_odd_integer value : ℚ) ∧
    round_up_to_odd_integer value ≤ ⌈value⌉ + 1 ∧
    round_up_to_odd_integer value =
      (if Even ⌈value⌉ then ⌈value⌉ + 1 else ⌈value⌉) := by
  unfold round_up_to_odd_integer
  rcases Int.even_or_odd ⌈value⌉ with he | ho
  · have h2 : ⌈value⌉ % 2 = 0 := Int.even_iff.mp he
    rw [if_pos h2, if_pos he]
    refine ⟨he.add_one, ?_, by omega, rfl⟩
    exact le_trans (Int.le_ceil value) (by push_cast; linarith)
  · have h2 : ¬ ⌈value⌉ % 2 = 0 := by
      simpa [Int.even_iff] using Int.not_even_iff_odd.mpr ho
    rw [if_neg h2, if_neg (Int.not_even_iff_odd.mpr ho)]
    exact ⟨ho, Int.le_ceil value, by omega, rfl⟩

/-- The squared pixel distance is symmetric. -/
theorem distSq_comm (p q : ℚ × ℚ) : distSq p q = distSq q p := by
  simp only [distSq]; ring

/-- `sqrtLtB` decides exactly the comparison `np.sqrt(d2) < t` the source
performs on squared distances. -/
theorem sqrtLtB_eq_sqrt_lt (d2 t : ℚ) (h : 0 ≤ d2) :
    sqrtLtB d2 t = true ↔ Real.sqrt (d2 : ℝ) < (t : ℝ) := by
  unfold sqrtLtB
  by_cases ht : 0 ≤ t
  · have h2 : Real.sqrt (d2 : ℝ) < (t : ℝ) ↔ (d2 : ℝ) < (t : ℝ) ^ 2 :=
      Real.sqrt_lt (by exact_mod_cast h) (by exact_mod_cast ht)
    rw [h2]
    simp [ht]
    exact_mod_cast Iff.rfl
  · simp only [decide_eq_true_eq, Bool.and_eq_true, decide_eq_true_iff]
    constructor
    · rintro ⟨ht', _⟩; exact absurd ht' ht
    · intro hlt
      exact absurd (lt_of_le_of_lt (Real.sqrt_nonneg _) hlt)
        (by push_neg at ht; exact_mod_cast not_lt.mpr (le_of_lt (by exact_mod_cast ht)))

/-- A Boolean list has a `true` entry iff some `getD` index reads `true`. -/
theorem any_id_iff_getD (l : List Bool) : l.any id = true ↔ ∃ j, l.getD j false = true := by
  induction l with
  | nil => simp
  | cons b bs ih =>
    cases b
    · simp only [List.any_cons, Bool.false_or, id]
      rw [ih]
      constructor
      · rintro ⟨j, hj⟩; exact ⟨j + 1, by simpa using hj⟩
      · rintro ⟨j, hj⟩
        cases j with
        | zero => simp at hj
        | succ j => exact ⟨j, by simpa using hj⟩
    · exact ⟨fun _ => ⟨0, rfl⟩, fun _ => by simp⟩

/-- A `true` read through `getD` is inside the list. -/
theorem getD_true_lt_length {l : List Bool} {j : Nat} (h : l.getD j false = true) :
    j < l.length := by
  by_contra hle
  rw [List.getD_eq_getElem?_getD, List.getElem?_eq_none (by omega)] at h
  simp at h

/-- `minEntry` returns an index that reads back the returned value. -/
theorem minEntry_getD :
    ∀ (row : List (Option ℚ)) (b : Nat × ℚ), minEntry row = some b →
      row.getD b.1 none = some b.2 := by
  intro row
  induction row with
  | nil => intro b h; simp [minEntry] at h
  | cons o rest ih =>
    intro b h
    cases o with
    | none =>
      rw [minEntry, Option.map_eq_some'] at h
      obtain ⟨c, hm, hc⟩ := h
      subst hc
      simpa using ih c hm
    | some v =>
      rw [minEntry] at h
      split at h
      case _ hm =>
        obtain rfl : ((0 : Nat), v) = b := by simpa using h
        simp
      case _ c hm =>
        split at h
        · obtain rfl : (c.1 + 1, c.2) = b := by simpa using h
          simpa using ih c hm
        · obtain rfl : ((0 : Nat), v) = b := by simpa using h
          simp

/-- A masked index never points at itself: its `arg_min` is another index. -/
theorem argMins_ne {t : ℚ} {pos : List (ℚ × ℚ)} {idx : Nat}
    (h : (initMask t pos).getD idx false = true) :
    (argMins pos).getD idx 0 ≠ idx := by
  have hlen : idx < pos.length := by
    have := getD_true_lt_length h
    simpa [initMask] using this
  have hval : (initMask t pos).getD idx false =
      (match minEntry (distRow pos idx) with
        | none => false
        | some b => sqrtLtB b.2 t) := by
    simp [initMask, List.getD_eq_getElem?_getD, List.getElem?_map, List.getElem?_range hlen]
  rw [hval] at h
  cases hm : minEntry (distRow pos idx) with
  | none => rw [hm] at h; simp at h
  | some b =>
    have hread := minEntry_getD _ b hm
    have hargs : (argMins pos).getD idx 0 = b.1 := by
      simp [argMins, List.getD_eq_getElem?_getD, List.getElem?_map, List.getElem?_range hlen, hm]
    rw [hargs]
    intro hbi
    rw [hbi] at hread
    have : (distRow pos idx).getD idx none = none := by
      simp [distRow, List.getD_eq_getElem?_getD, List.getElem?_map, List.getElem?_range hlen]
    rw [this] at hread
    exact Option.noConfusion hread

/-- The un-mask scan never turns a mask bit on. -/
theorem unmaskScan_le (am : List Nat) :
    ∀ (idxs : List Nat) (m : List Bool) (j : Nat),
      (unmaskScan am idxs m).getD j false = true → m.getD j false = true := by
  intro idxs
  induction idxs with
  | nil => intro m j h; simpa [unmaskScan] using h
  | cons idx rest ih =>
    intro m j h
    rw [unmaskScan] at h
    by_cases hfire : m.getD idx false = true
    · rw [if_pos hfire] at h
      have hj := ih _ j h
      by_cases hlen : m.length ≤ am.getD idx 0
      · rwa [List.set_eq_of_length_le hlen] at hj
      · by_cases hja : j = am.getD idx 0
        · subst hja
          rw [List.getD_eq_getElem?_getD, List.getElem?_set_self (by omega)] at hj
          simp at hj
        · rwa [List.getD_eq_getElem?_getD, List.getElem?_set_ne (fun hh => hja hh.symm),
            ← List.getD_eq_getElem?_getD] at hj
    · rw [if_neg hfire] at h
      exact ih _ j h

/-- If some index fires during the un-mask scan, a masked index survives it:
the scan can never end with an all-clear mask once a conflict is present. -/
theorem unmaskScan_survivor (am : List Nat) (m0 : List Bool)
    (ham : ∀ j, m0.getD j false = true → am.getD j 0 ≠ j) :
    ∀ (idxs : List Nat) (m : List Bool),
      (∀ j, m.getD j false = true → m0.getD j false = true) →
      ((∃ j, j ∈ idxs ∧ m.getD j false = true) ∨
        ((∃ j, m.getD j false = true) ∧ ∀ j ∈ idxs, m.getD j false = false)) →
      ∃ j, (unmaskScan am idxs m).getD j false = true := by
  intro idxs
  induction idxs with
  | nil =>
    intro m _ hdisj
    rcases hdisj with ⟨j, hjmem, _⟩ | ⟨⟨j, hj⟩, _⟩
    · exact absurd hjmem (List.not_mem_nil j)
    · exact ⟨j, by simpa [unmaskScan] using hj⟩
  | cons idx rest ih =>
    intro m hle hdisj
    rw [unmaskScan]
    by_cases hfire : m.getD idx false = true
    · rw [if_pos hfire]
      have hne : am.getD idx 0 ≠ idx := ham idx (hle idx hfire)
      have hm'le : ∀ j, (m.set (am.getD idx 0) false).getD j false = true →
          m0.getD j false = true := by
        intro j hj
        apply hle
        by_cases hlen : m.length ≤ am.getD idx 0
        · rwa [List.set_eq_of_length_le hlen] at hj
        · by_cases hja : j = am.getD idx 0
          · subst hja
            rw [List.getD_eq_getElem?_getD, List.getElem?_set_self (by omega)] at hj
            simp at hj
          · rwa [List.getD_eq_getElem?_getD, List.getElem?_set_ne (fun hh => hja hh.symm),
              ← List.getD_eq_getElem?_getD] at hj
      have hm'idx : (m.set (am.getD idx 0) false).getD idx false = true := by
        rw [List.getD_eq_getElem?_getD, List.getElem?_set_ne hne,
          ← List.getD_eq_getElem?_getD]
        exact hfire
      apply ih _ hm'le
      by_cases hrest : ∃ j, j ∈ rest ∧ (m.set (am.getD idx 0) false).getD j false = true
      · exact Or.inl hrest
      · refine Or.inr ⟨⟨idx, hm'idx⟩, fun j hj => ?_⟩
        push_neg at hrest
        have := hrest j hj
        exact Bool.not_eq_true _ ▸ (by simpa using this)
    · rw [if_neg hfire]
      apply ih _ hle
      rcases hdisj with ⟨j, hjmem, hjtrue⟩ | ⟨hex, hall⟩
      · rcases List.mem_cons.mp hjmem with rfl | hjrest
        · exact absurd hjtrue hfire
        · exact Or.inl ⟨j, hjrest, hjtrue⟩
      · exact Or.inr ⟨hex, fun j hj => hall j (List.mem_cons_of_mem _ hj)⟩

/-- If no index is masked, the un-mask scan does nothing. -/
theorem unmaskScan_eq_of_not_any (am : List Nat) :
    ∀ (idxs : List Nat) (m : List Bool), m.any id = false → unmaskScan am idxs m = m := by
  intro idxs
  induction idxs with
  | nil => intro m _; rfl
  | cons idx rest ih =>
    intro m hm
    rw [unmaskScan]
    have : ¬ m.getD idx false = true := by
      intro htrue
      rw [← Bool.not_eq_true] at hm
      exact hm ((any_id_iff_getD m).mpr ⟨idx, htrue⟩)
    rw [if_neg this]
    exact ih m hm

/-- The un-mask scan preserves the mask length. -/
theorem length_unmaskScan (am : List Nat) :
    ∀ (idxs : List Nat) (m : List Bool), (unmaskScan am idxs m).length = m.length := by
  intro idxs
  induction idxs with
  | nil => intro m; rfl
  | cons idx rest ih =>
    intro m
    rw [unmaskScan]
    by_cases hfire : m.getD idx false = true
    · rw [if_pos hfire, ih, List.length_set]
    · rw [if_neg hfire, ih]

/-- The recomputed `dist_mask` has one bit per candidate position. -/
theorem length_initMask (t : ℚ) (pos : List (ℚ × ℚ)) :
    (initMask t pos).length = pos.length := by
  simp [initMask]

/-- The end-of-pass mask has one bit per candidate position. -/
theorem length_finalMask (t : ℚ) (pos : List (ℚ × ℚ)) :
    (finalMask t pos).length = pos.length := by
  rw [finalMask, unmaskAll, length_unmaskScan, length_initMask]

/-- Filtering by a mask never lengthens the list. -/
theorem applyMask_length_le : ∀ (pos : List (ℚ × ℚ)) (mask : List Bool),
    (applyMask pos mask).length ≤ pos.length := by
  intro pos mask
  induction pos generalizing mask with
  | nil => simp [applyMask]
  | cons p ps ih =>
    cases mask with
    | nil => simp [applyMask]
    | cons b bs =>
      cases b with
      | false =>
        simpa [applyMask, List.zip_cons_cons] using Nat.succ_le_succ (ih bs)
      | true =>
        simp only [applyMask, List.zip_cons_cons, List.filter_cons]
        exact le_trans (ih bs) (Nat.le_succ _)

/-- Filtering by a mask with a set bit strictly shortens the list. -/
theorem applyMask_length_lt : ∀ (pos : List (ℚ × ℚ)) (mask : List Bool),
    mask.length = pos.length → mask.any id = true →
    (applyMask pos mask).length < pos.length := by
  intro pos mask
  induction pos generalizing mask with
  | nil =>
    intro hlen hany
    rw [List.length_eq_zero.mp hlen] at hany
    simp at hany
  | cons p ps ih =>
    intro hlen hany
    cases mask with
    | nil => simp at hlen
    | cons b bs =>
      cases b with
      | false =>
        have : bs.any id = true := by simpa using hany
        simpa [applyMask, List.zip_cons_cons] using
          Nat.succ_lt_succ (ih bs (by simpa using hlen) this)
      | true =>
        simp only [applyMask, List.zip_cons_cons, List.filter_cons]
        exact lt_of_le_of_lt (applyMask_length_le ps bs) (Nat.lt_succ_self _)

/-- Filtering by an all-clear mask of matching length keeps everything. -/
theorem applyMask_eq_of_not_any : ∀ (pos : List (ℚ × ℚ)) (mask : List Bool),
    mask.length = pos.length → mask.any id = false → applyMask pos mask = pos := by
  intro pos mask
  induction pos generalizing mask with
  | nil => intro _ _; simp [applyMask]
  | cons p ps ih =>
    intro hlen hany
    cases mask with
    | nil => simp at hlen
    | cons b bs =>
      cases b with
      | false =>
        have : bs.any id = false := by simpa using hany
        simpa [applyMask, List.zip_cons_cons] using ih bs (by simpa using hlen) this
      | true => simp at hany

/-- If the recomputed mask shows a conflict, a mask bit survives the
un-mask scan. -/
theorem finalMask_any_of_initMask_any {t : ℚ} {pos : List (ℚ × ℚ)}
    (h : (initMask t pos).any id = true) : (finalMask t pos).any id = true := by
  rw [any_id_iff_getD] at h
  obtain ⟨j, hj⟩ := h
  rw [finalMask, unmaskAll, any_id_iff_getD]
  exact unmaskScan_survivor (argMins pos) (initMask t pos)
    (fun _ h => argMins_ne h) _ (initMask t pos) (fun _ h => h)
    (Or.inl ⟨j, List.mem_range.mpr (getD_true_lt_length hj), hj⟩)

/-- A pass with no conflicting pair removes nothing. -/
theorem removePass_eq_of_not_any {t : ℚ} {pos : List (ℚ × ℚ)}
    (h : (initMask t pos).any id = false) : removePass t pos = pos := by
  rw [removePass, finalMask, unmaskAll, unmaskScan_eq_of_not_any _ _ _ h]
  exact applyMask_eq_of_not_any pos _ (length_initMask t pos) h

/-- A pass with a conflicting pair removes at least one position. -/
theorem removePass_lt_of_any {t : ℚ} {pos : List (ℚ × ℚ)}
    (h : (initMask t pos).any id = true) :
    (removePass t pos).length < pos.length := by
  exact applyMask_length_lt pos _ (length_finalMask t pos)
    (finalMask_any_of_initMask_any h)

/-- The source's inner-loop guard `not np.all(~dist_mask)` holds exactly when
the pass strictly shrank the candidate list, which is the guard used by
`resolveClose`. -/
theorem finalMask_any_iff_lt (t : ℚ) (pos : List (ℚ × ℚ)) :
    (finalMask t pos).any id = true ↔ (removePass t pos).length < pos.length := by
  constructor
  · intro h
    exact applyMask_length_lt pos _ (length_finalMask t pos) h
  · intro h
    by_contra hne
    rw [Bool.not_eq_true] at hne
    rw [removePass, applyMask_eq_of_not_any pos _ (length_finalMask t pos) hne] at h
    exact lt_irrefl _ h

/-- C1 (counterexample): for the two accepted positions `(0, 0)` and
`(0, 1/2)` with `dist_threshold = 1`, the conflict-resolution pass of
`pos_uniform` keeps the SECOND member of the too-close pair and drops the
FIRST, not the other way around as claimed. -/
theorem removePass_pair_cex :
    removePass 1 [((0 : ℚ), (0 : ℚ)), ((0 : ℚ), 1 / 2)] = [((0 : ℚ), 1 / 2)] ∧
    removePass 1 [((0 : ℚ), (0 : ℚ)), ((0 : ℚ), 1 / 2)] ≠ [((0 : ℚ), (0 : ℚ))] := by
  have h : removePass 1 [((0 : ℚ), (0 : ℚ)), ((0 : ℚ), 1 / 2)] = [((0 : ℚ), 1 / 2)] := by
    norm_num [removePass, finalMask, unmaskAll, unmaskScan, initMask, argMins, minEntry,
      distRow, distSq, sqrtLtB, applyMask, List.range_succ]
  refine ⟨h, ?_⟩
  rw [h]
  intro hh
  simp at hh

/-- C1 (amended): when the accepted positions form a single too-close pair,
the conflict-resolution pass removes exactly one member of the pair — it
drops the first member and keeps the second (whose mask bit the scan
explicitly clears, so the pair is not invalidated symmetrically). -/
theorem removePass_pair (p q : ℚ × ℚ) (t : ℚ)
    (h : sqrtLtB (distSq p q) t = true) :
    removePass t [p, q] = [q] := by
  have hqp : sqrtLtB (distSq q p) t = true := by rwa [distSq_comm q p]
  simp [removePass, finalMask, unmaskAll, unmaskScan, initMask, argMins, minEntry,
    distRow, applyMask, List.range_succ, h, hqp]

/-- C1 (witness): a concrete too-close pair on which `removePass_pair`
applies. -/
theorem removePass_pair_witness :
    sqrtLtB (distSq ((0 : ℚ), (0 : ℚ)) ((0 : ℚ), 1)) 2 = true ∧
    removePass 2 [((0 : ℚ), (0 : ℚ)), ((0 : ℚ), 1)] = [((0 : ℚ), 1)] := by
  have hh : sqrtLtB (distSq ((0 : ℚ), (0 : ℚ)) ((0 : ℚ), 1)) 2 = true := by
    norm_num [sqrtLtB, distSq]
  exact ⟨hh, removePass_pair _ _ _ hh⟩

/-- Each extra iteration of the outer loop of `pos_uniform` consumes one unit
of the `max_loop` budget. -/
theorem pos_uniform_loop_iters_le (t : ℚ) (ns : Nat) (shape : ℚ × ℚ)
    (mp : Option ((ℤ × ℤ) → Bool)) :
    ∀ (fuel : Nat) (draws : List (List (ℚ × ℚ))) (pos : List (ℚ × ℚ)),
      (pos_uniform_loop t ns shape mp draws fuel pos).2 ≤ fuel := by
  intro fuel
  induction fuel with
  | zero => intro draws pos; simp [pos_uniform_loop]
  | succ n ih =>
    intro draws pos
    rw [pos_uniform_loop]
    by_cases hlt : pos.length < ns
    · rw [if_pos hlt]
      simpa using Nat.succ_le_succ (ih draws.tail _)
    · rw [if_neg hlt]
      simp

/-- C3: `pos_uniform` terminates on every input and every outcome of the
random draws: each pass of the inner minimum-distance loop either finds no
pair closer than `dist_threshold` (and removes nothing, so the loop exits)
or removes at least one position from the finite candidate list, and the
outer draw-and-filter loop performs at most `max_loop` iterations. -/
theorem pos_uniform_terminates :
    (∀ (t : ℚ) (pos : List (ℚ × ℚ)),
      ((initMask t pos).any id = false ∧ removePass t pos = pos) ∨
        (removePass t pos).length < pos.length) ∧
    (∀ (t : ℚ) (ns : Nat) (shape : ℚ × ℚ) (mp : Option ((ℤ × ℤ) → Bool))
      (draws : List (List (ℚ × ℚ))) (maxLoop : Nat),
      (pos_uniform_loop t ns shape mp draws maxLoop []).2 ≤ maxLoop) := by
  constructor
  · intro t pos
    by_cases h : (initMask t pos).any id = true
    · exact Or.inr (removePass_lt_of_any h)
    · have hf : (initMask t pos).any id = false := by
        revert h; cases (initMask t pos).any id <;> simp
      exact Or.inl ⟨hf, removePass_eq_of_not_any hf⟩
  · intro t ns shape mp draws maxLoop
    exact pos_uniform_loop_iters_le t ns shape mp maxLoop draws []

/-- The exclusion-mask filter never lengthens the list. -/
theorem maskFilter_length_le (mp : Option ((ℤ × ℤ) → Bool)) (pos : List (ℚ × ℚ)) :
    (maskFilter mp pos).length ≤ pos.length := by
  cases mp with
  | none => exact le_refl _
  | some m => exact List.length_filter_le _ _

/-- The grid laid out by `pos_gridded` has `sq * sq` points. -/
theorem gridRaw_length (sq : Nat) (w : ℚ × ℚ) : (gridRaw sq w).length = sq * sq := by
  simp [gridRaw, List.length_flatMap, Function.comp_def, List.map_const', List.sum_replicate,
    smul_eq_mul]

/-- The accumulated position list of the outer loop of `pos_uniform` never
exceeds `nsources` once it is within budget. -/
theorem pos_uniform_loop_len_le (t : ℚ) (ns : Nat) (shape : ℚ × ℚ)
    (mp : Option ((ℤ × ℤ) → Bool)) :
    ∀ (fuel : Nat) (draws : List (List (ℚ × ℚ))) (pos : List (ℚ × ℚ)),
      pos.length ≤ ns → (pos_uniform_loop t ns shape mp draws fuel pos).1.length ≤ ns := by
  intro fuel
  induction fuel with
  | zero => intro draws pos h; simpa [pos_uniform_loop] using h
  | succ n ih =>
    intro draws pos h
    rw [pos_uniform_loop]
    by_cases hlt : pos.length < ns
    · rw [if_pos hlt]
      simpa using ih draws.tail _ (by
        rw [List.length_take]
        exact Nat.min_le_left _ _)
    · rw [if_neg hlt]
      simpa using h

/-- If the outer loop of `pos_uniform` ends under-filled, it spent its whole
iteration budget. -/
theorem pos_uniform_loop_underfill (t : ℚ) (ns : Nat) (shape : ℚ × ℚ)
    (mp : Option ((ℤ × ℤ) → Bool)) :
    ∀ (fuel : Nat) (draws : List (List (ℚ × ℚ))) (pos : List (ℚ × ℚ)),
      (pos_uniform_loop t ns shape mp draws fuel pos).1.length < ns →
      (pos_uniform_loop t ns shape mp draws fuel pos).2 = fuel := by
  intro fuel
  induction fuel with
  | zero => intro draws pos _; rfl
  | succ n ih =>
    intro draws pos h
    rw [pos_uniform_loop] at h ⊢
    by_cases hlt : pos.length < ns
    · rw [if_pos hlt] at h ⊢
      simp only at h ⊢
      rw [ih draws.tail _ h]
    · rw [if_neg hlt] at h ⊢
      exact absurd h (by simpa using hlt)

/-- C2 (counterexample): `pos_list` with `nsources = 1` and two supplied
in-bounds positions returns BOTH of them — strictly more than the requested
count, so its output length is not bounded by `nsources`. -/
theorem pos_list_over_request_cex :
    pos_list 1 ((10 : ℚ), (10 : ℚ)) ((0 : ℚ), (1 : ℚ)) none (some [2, 3]) (some [4, 5]) =
      .ok ((([2, 3] : List ℚ), ([4, 5] : List ℚ)), false) ∧
    ¬ (([2, 3] : List ℚ).length ≤ 1) := by
  constructor
  · norm_num [pos_list, withinB, maskFilter]
  · simp

/-- C2 (amended): `pos_uniform` and `pos_gridded` return at most `nsources`
positions, and each generator that ends with fewer than `nsources` positions
reports it through the warning flag instead of raising; `pos_list`, however,
returns every supplied position that passes the filters (bounded only by the
supplied count, possibly exceeding `nsources`). -/
theorem generators_count_spec :
    (∀ (t : ℚ) (ns : Nat) (shape : ℚ × ℚ) (mp : Option ((ℤ × ℤ) → Bool))
        (maxLoop : Nat) (draws : List (List (ℚ × ℚ))),
      (pos_uniform t ns shape mp maxLoop draws).1.1.length ≤ ns ∧
      (pos_uniform t ns shape mp maxLoop draws).1.2.length ≤ ns ∧
      ((pos_uniform t ns shape mp maxLoop draws).1.1.length < ns →
        (pos_uniform t ns shape mp maxLoop draws).2 = true)) ∧
    (∀ (ns : Nat) (shape w : ℚ × ℚ) (mp : Option ((ℤ × ℤ) → Bool)) (wob : Bool)
        (woff : Nat → ℚ × ℚ) (r : (List ℚ × List ℚ) × Bool),
      pos_gridded ns shape w mp wob woff = .ok r →
      r.1.1.length ≤ ns ∧ r.1.2.length ≤ ns ∧ (r.1.1.length < ns → r.2 = true)) ∧
    (∀ (ns : Nat) (shape w : ℚ × ℚ) (mp : Option ((ℤ × ℤ) → Bool))
        (xs ys : List ℚ) (r : (List ℚ × List ℚ) × Bool),
      pos_list ns shape w mp (some xs) (some ys) = .ok r →
      r.1.1.length ≤ xs.length ∧ (r.1.1.length < ns → r.2 = true)) := by
  refine ⟨?_, ?_, ?_⟩
  · intro t ns shape mp maxLoop draws
    have hlen : (pos_uniform_loop t ns shape mp draws maxLoop []).1.length ≤ ns :=
      pos_uniform_loop_len_le t ns shape mp maxLoop draws [] (Nat.zero_le ns)
    refine ⟨by simpa [pos_uniform] using hlen, by simpa [pos_uniform] using hlen, ?_⟩
    intro hunder
    have hunder' : (pos_uniform_loop t ns shape mp draws maxLoop []).1.length < ns := by
      simpa [pos_uniform] using hunder
    have := pos_uniform_loop_underfill t ns shape mp maxLoop draws [] hunder'
    simp [pos_uniform, this, hunder']
  · intro ns shape w mp wob woff r h
    rw [pos_gridded] at h
    by_cases h1 : Nat.sqrt ns * Nat.sqrt ns ≠ ns
    · rw [if_pos h1] at h; exact absurd h (by simp)
    · rw [if_neg h1] at h
      by_cases h2 : ¬ 1 < ns
      · rw [if_pos h2] at h; exact absurd h (by simp)
      · rw [if_neg h2] at h
        push_neg at h1
        obtain rfl := (Except.ok.inj h).symm
        have hlen : (maskFilter mp
            (((if wob then (gridRaw (Nat.sqrt ns) w).enum.map
                  (fun ip => (ip.2.1 + (woff ip.1).1, ip.2.2 + (woff ip.1).2))
                else gridRaw (Nat.sqrt ns) w).filter fun p =>
              decide (0 ≤ p.1) && decide (p.1 ≤ 1) && decide (0 ≤ p.2) &&
                decide (p.2 ≤ 1)).map (scalePos shape))).length ≤ ns := by
          refine le_trans (maskFilter_length_le _ _) ?_
          rw [List.length_map]
          refine le_trans (List.length_filter_le _ _) ?_
          cases wob with
          | false => simp [gridRaw_length, h1]
          | true => simp [List.enum_length, gridRaw_length, h1]
        exact ⟨by simpa using hlen, by simpa using hlen, fun hu => by simpa using hu⟩
  · intro ns shape w mp xs ys r h
    rw [pos_list] at h
    by_cases h1 : xs.length ≠ ys.length
    · rw [if_pos h1] at h; exact absurd h (by simp)
    · rw [if_neg h1] at h
      by_cases h2 : ¬ ns ≤ xs.length
      · rw [if_pos h2] at h; exact absurd h (by simp)
      · rw [if_neg h2] at h
        obtain rfl := (Except.ok.inj h).symm
        have hlen : (maskFilter mp ((ys.zip xs).filter (withinB shape w))).length ≤
            xs.length := by
          refine le_trans (maskFilter_length_le _ _) ?_
          refine le_trans (List.length_filter_le _ _) ?_
          rw [List.length_zip]
          exact Nat.min_le_right _ _
        exact ⟨by simpa using hlen, fun hu => by simpa using hu⟩

/-- C2 (witness): the three generators applied at concrete inputs. -/
theorem generators_count_witness :
    (pos_uniform 0 1 ((10 : ℚ), 10) none 1 [[((1 : ℚ) / 2, 1 / 2)]]).1.1.length ≤ 1 ∧
    ((([(37 : ℚ) / 6, 77 / 6, 37 / 6, 77 / 6],
        [(17 : ℚ) / 6, 17 / 6, 37 / 6, 37 / 6]), false) :
      (List ℚ × List ℚ) × Bool).1.1.length ≤ 4 ∧
    (((([2, 3] : List ℚ), ([4, 5] : List ℚ)), false) :
      (List ℚ × List ℚ) × Bool).1.1.length ≤ ([2, 3] : List ℚ).length := by
  have hg : pos_gridded 4 ((10 : ℚ), (20 : ℚ)) ((0 : ℚ), (1 : ℚ)) none false (fun _ => (0, 0)) =
      .ok ((([37 / 6, 77 / 6, 37 / 6, 77 / 6] : List ℚ),
        ([17 / 6, 17 / 6, 37 / 6, 37 / 6] : List ℚ)), false) := by
    norm_num [pos_gridded, gridRaw, maskFilter, scalePos, List.range_succ]
  have hl : pos_list 1 ((10 : ℚ), (10 : ℚ)) ((0 : ℚ), (1 : ℚ)) none
      (some [2, 3]) (some [4, 5]) = .ok ((([2, 3] : List ℚ), ([4, 5] : List ℚ)), false) := by
    norm_num [pos_list, withinB, maskFilter]
  exact ⟨(generators_count_spec.1 0 1 ((10 : ℚ), 10) none 1 [[((1 : ℚ) / 2, 1 / 2)]]).1,
    (generators_count_spec.2.1 4 ((10 : ℚ), (20 : ℚ)) ((0 : ℚ), (1 : ℚ)) none false
      (fun _ => (0, 0)) _ hg).1,
    (generators_count_spec.2.2 1 ((10 : ℚ), (10 : ℚ)) ((0 : ℚ), (1 : ℚ)) none
      [2, 3] [4, 5] _ hl).1⟩

/-- C4: `pos_gridded` fails with an assertion-style error when `nsources` is
not a perfect square or equals `1`; for a perfect-square `nsources > 1` with
no wobble and no exclusion mask (and `0 ≤ within[0] ≤ within[1] ≤ 1`) it
returns exactly `nsources` positions on a `sqrt(nsources) × sqrt(nsources)`
grid at normalized coordinates `within[0] + (i+1)*(within[1]-within[0]) /
(sqrt(nsources)+1)`, scaled to pixels as `pos * shape - 0.5` and exposed as
`(x, y)`. -/
theorem pos_gridded_spec :
    (∀ (n : Nat) (shape w : ℚ × ℚ) (mp : Option ((ℤ × ℤ) → Bool)) (wob : Bool)
        (woff : Nat → ℚ × ℚ),
      ((¬ ∃ k, k * k = n) ∨ n = 1) →
      ∃ msg, pos_gridded n shape w mp wob woff = .error msg) ∧
    (∀ (n : Nat) (shape w : ℚ × ℚ) (woff : Nat → ℚ × ℚ),
      (∃ k, 1 < k ∧ k * k = n) → 0 ≤ w.1 → w.1 ≤ w.2 → w.2 ≤ 1 →
      ∃ r, pos_gridded n shape w none false woff = .ok r ∧
        r.1.1 = ((List.range (Nat.sqrt n)).flatMap fun (_ : ℕ) =>
          (List.range (Nat.sqrt n)).map fun (j : ℕ) =>
            (w.1 + (j + 1) * ((w.2 - w.1) / (Nat.sqrt n + 1))) * shape.2 - 1 / 2) ∧
        r.1.2 = ((List.range (Nat.sqrt n)).flatMap fun (i : ℕ) =>
          (List.range (Nat.sqrt n)).map fun (_ : ℕ) =>
            (w.1 + (i + 1) * ((w.2 - w.1) / (Nat.sqrt n + 1))) * shape.1 - 1 / 2) ∧
        r.1.1.length = n ∧ r.1.2.length = n ∧ r.2 = false) := by
  constructor
  · intro n shape w mp wob woff hbad
    rcases hbad with hnsq | h1
    · have hne : Nat.sqrt n * Nat.sqrt n ≠ n := fun he => hnsq ⟨Nat.sqrt n, he⟩
      rw [pos_gridded, if_pos hne]
      exact ⟨_, rfl⟩
    · subst h1
      rw [pos_gridded, if_neg (by rw [Nat.sqrt_one]; exact fun h => h rfl),
        if_pos (by omega)]
      exact ⟨_, rfl⟩
  · intro n shape w woff hsq hw0 hw12 hw21
    obtain ⟨k, hk1, hkk⟩ := hsq
    have hs : Nat.sqrt n = k := by rw [← hkk]; exact Nat.sqrt_eq k
    have h1n : 1 < n := by
      calc 1 < k := hk1
      _ ≤ k * k := Nat.le_mul_of_pos_left k (by omega)
      _ = n := hkk
    have hstep : (0 : ℚ) ≤ (w.2 - w.1) / ((k : ℚ) + 1) := by
      apply div_nonneg (by linarith)
      positivity
    have hcoord : ∀ i : Nat, i < k →
        0 ≤ w.1 + ((i : ℚ) + 1) * ((w.2 - w.1) / ((k : ℚ) + 1)) ∧
        w.1 + ((i : ℚ) + 1) * ((w.2 - w.1) / ((k : ℚ) + 1)) ≤ 1 := by
      intro i hi
      constructor
      · have : (0 : ℚ) ≤ ((i : ℚ) + 1) * ((w.2 - w.1) / ((k : ℚ) + 1)) := by
          apply mul_nonneg (by positivity) hstep
        linarith
      · have hle : ((i : ℚ) + 1) * ((w.2 - w.1) / ((k : ℚ) + 1)) ≤
            ((k : ℚ) + 1) * ((w.2 - w.1) / ((k : ℚ) + 1)) := by
          apply mul_le_mul_of_nonneg_right _ hstep
          have : (i : ℚ) ≤ (k : ℚ) := by exact_mod_cast le_of_lt hi
          linarith
        have hcc : ((k : ℚ) + 1) * ((w.2 - w.1) / ((k : ℚ) + 1)) = w.2 - w.1 := by
          rw [mul_div_cancel₀]
          positivity
        rw [hcc] at hle
        linarith
    have hfil : (gridRaw k w).filter (fun p =>
        decide (0 ≤ p.1) && decide (p.1 ≤ 1) && decide (0 ≤ p.2) &&
          decide (p.2 ≤ 1)) = gridRaw k w := by
      apply List.filter_eq_self.mpr
      intro p hp
      simp only [gridRaw, List.mem_flatMap, List.mem_map, List.mem_range] at hp
      obtain ⟨i, hi, j, hj, rfl⟩ := hp
      simp only [Bool.and_eq_true, decide_eq_true_eq]
      obtain ⟨hi0, hi1⟩ := hcoord i hi
      obtain ⟨hj0, hj1⟩ := hcoord j hj
      exact ⟨⟨⟨hi0, hi1⟩, hj0⟩, hj1⟩
    have e1 : List.map (Prod.snd ∘ scalePos shape) (gridRaw k w) =
        List.map (fun p => p.2 * shape.2 - 1 / 2) (gridRaw k w) := by
      simp [Function.comp_def, scalePos]
    have e2 : List.map (Prod.fst ∘ scalePos shape) (gridRaw k w) =
        List.map (fun p => p.1 * shape.1 - 1 / 2) (gridRaw k w) := by
      simp [Function.comp_def, scalePos]
    have e3 : decide ((List.map (scalePos shape) (gridRaw k w)).length < n) = false := by
      simp [List.length_map, gridRaw_length, hkk]
    refine ⟨(((gridRaw k w).map fun p => p.2 * shape.2 - 1 / 2,
        (gridRaw k w).map fun p => p.1 * shape.1 - 1 / 2), false), ?_, ?_, ?_, ?_, ?_, rfl⟩
    · rw [pos_gridded, if_neg (by rw [hs, hkk]; exact fun h => h rfl),
        if_neg (not_not_intro h1n)]
      simp only [hs, Bool.false_eq_true, if_false, hfil, maskFilter, List.map_map]
      rw [e1, e2, e3]
    · simp only [hs, gridRaw, List.map_flatMap, List.map_map, Function.comp_def]
    · simp only [hs, gridRaw, List.map_flatMap, List.map_map, Function.comp_def]
    · simp [List.length_map, gridRaw_length, hkk]
    · simp [List.length_map, gridRaw_length, hkk]

/-- C4 (witness): `pos_gridded` at the concrete failing count `5` and at the
concrete grid request `nsources = 4`, `shape = (10, 20)`, `within = (0, 1)`. -/
theorem pos_gridded_spec_witness :
    (∃ msg, pos_gridded 5 ((10 : ℚ), 10) ((0 : ℚ), 1) none false (fun _ => (0, 0)) =
      .error msg) ∧
    (∃ r, pos_gridded 4 ((10 : ℚ), 20) ((0 : ℚ), 1) none false (fun _ => (0, 0)) = .ok r ∧
      r.1.1 = ((List.range (Nat.sqrt 4)).flatMap fun (_ : ℕ) =>
        (List.range (Nat.sqrt 4)).map fun (j : ℕ) =>
          ((0 : ℚ) + (j + 1) * (((1 : ℚ) - 0) / (Nat.sqrt 4 + 1))) * 20 - 1 / 2) ∧
      r.1.2 = ((List.range (Nat.sqrt 4)).flatMap fun (i : ℕ) =>
        (List.range (Nat.sqrt 4)).map fun (_ : ℕ) =>
          ((0 : ℚ) + (i + 1) * (((1 : ℚ) - 0) / (Nat.sqrt 4 + 1))) * 10 - 1 / 2) ∧
      r.1.1.length = 4 ∧ r.1.2.length = 4 ∧ r.2 = false) := by
  constructor
  · exact pos_gridded_spec.1 5 ((10 : ℚ), 10) ((0 : ℚ), 1) none false (fun _ => (0, 0))
      (Or.inl (by rw [Nat.exists_mul_self]; norm_num))
  · exact pos_gridded_spec.2 4 ((10 : ℚ), 20) ((0 : ℚ), 1) (fun _ => (0, 0))
      ⟨2, by norm_num, by norm_num⟩ (by norm_num) (by norm_num) (by norm_num)

/-- The exclusion-mask filter is the list filter of `maskPred`'s negation. -/
theorem maskFilter_eq_filter (mp : Option ((ℤ × ℤ) → Bool)) (l : List (ℚ × ℚ)) :
    maskFilter mp l = l.filter fun p => !maskPred mp p := by
  cases mp with
  | none => simp [maskFilter, maskPred]
  | some m => simp [maskFilter, maskPred]

/-- C8: `pos_list` fails with an assertion-style error when `x_mean` or
`y_mean` is missing, when their lengths differ, or when fewer than
`nsources` positions are supplied; otherwise it returns exactly the supplied
positions filtered to the `within` bounds and to outside the exclusion mask,
in the original order (the kept rows form a sublist of the supplied rows). -/
theorem pos_list_spec :
    (∀ (ns : Nat) (shape w : ℚ × ℚ) (mp : Option ((ℤ × ℤ) → Bool))
        (ym : Option (List ℚ)),
      ∃ msg, pos_list ns shape w mp none ym = .error msg) ∧
    (∀ (ns : Nat) (shape w : ℚ × ℚ) (mp : Option ((ℤ × ℤ) → Bool)) (xs : List ℚ),
      ∃ msg, pos_list ns shape w mp (some xs) none = .error msg) ∧
    (∀ (ns : Nat) (shape w : ℚ × ℚ) (mp : Option ((ℤ × ℤ) → Bool)) (xs ys : List ℚ),
      xs.length ≠ ys.length →
      ∃ msg, pos_list ns shape w mp (some xs) (some ys) = .error msg) ∧
    (∀ (ns : Nat) (shape w : ℚ × ℚ) (mp : Option ((ℤ × ℤ) → Bool)) (xs ys : List ℚ),
      xs.length = ys.length → xs.length < ns →
      ∃ msg, pos_list ns shape w mp (some xs) (some ys) = .error msg) ∧
    (∀ (ns : Nat) (shape w : ℚ × ℚ) (mp : Option ((ℤ × ℤ) → Bool)) (xs ys : List ℚ),
      xs.length = ys.length → ns ≤ xs.length →
      ∃ kept : List (ℚ × ℚ),
        pos_list ns shape w mp (some xs) (some ys) =
          .ok ((kept.map Prod.snd, kept.map Prod.fst), decide (kept.length < ns)) ∧
        kept = (ys.zip xs).filter (fun p => withinB shape w p && !maskPred mp p) ∧
        kept.Sublist (ys.zip xs) ∧
        ∀ p ∈ kept, withinB shape w p = true ∧ maskPred mp p = false) := by
  refine ⟨?_, ?_, ?_, ?_, ?_⟩
  · intro ns shape w mp ym
    exact ⟨_, rfl⟩
  · intro ns shape w mp xs
    exact ⟨_, rfl⟩
  · intro ns shape w mp xs ys hne
    rw [pos_list, if_pos hne]
    exact ⟨_, rfl⟩
  · intro ns shape w mp xs ys heq hlt
    rw [pos_list, if_neg (not_not_intro heq), if_pos (by omega)]
    exact ⟨_, rfl⟩
  · intro ns shape w mp xs ys heq hge
    have hkept : maskFilter mp ((ys.zip xs).filter (withinB shape w)) =
        (ys.zip xs).filter (fun p => withinB shape w p && !maskPred mp p) := by
      rw [maskFilter_eq_filter, List.filter_filter]
      exact List.filter_congr fun p _ => Bool.and_comm _ _
    refine ⟨(ys.zip xs).filter (fun p => withinB shape w p && !maskPred mp p),
      ?_, rfl, List.filter_sublist _, ?_⟩
    · rw [pos_list, if_neg (not_not_intro heq), if_neg (not_not_intro hge)]
      simp only [hkept]
    · intro p hp
      rw [List.mem_filter] at hp
      obtain ⟨-, hp⟩ := hp
      rw [Bool.and_eq_true] at hp
      exact ⟨hp.1, by simpa using hp.2⟩

/-- C8 (witness): `pos_list` at concrete inputs exercising each assertion
failure and the filtering path. -/
theorem pos_list_spec_witness :
    (∃ msg, pos_list 1 ((10 : ℚ), 10) ((0 : ℚ), 1) none none (some [1]) = .error msg) ∧
    (∃ msg, pos_list 1 ((10 : ℚ), 10) ((0 : ℚ), 1) none (some [1]) none = .error msg) ∧
    (∃ msg, pos_list 1 ((10 : ℚ), 10) ((0 : ℚ), 1) none (some [1]) (some [2, 3]) =
      .error msg) ∧
    (∃ msg, pos_list 3 ((10 : ℚ), 10) ((0 : ℚ), 1) none (some [1, 2]) (some [3, 4]) =
      .error msg) ∧
    (∃ kept : List (ℚ × ℚ),
      pos_list 1 ((10 : ℚ), 10) ((0 : ℚ), 1) none (some [2, 3]) (some [4, 5]) =
        .ok ((kept.map Prod.snd, kept.map Prod.fst), decide (kept.length < 1)) ∧
      kept = (([4, 5] : List ℚ).zip ([2, 3] : List ℚ)).filter
        (fun p => withinB ((10 : ℚ), 10) ((0 : ℚ), 1) p && !maskPred none p) ∧
      kept.Sublist (([4, 5] : List ℚ).zip ([2, 3] : List ℚ)) ∧
      ∀ p ∈ kept, withinB ((10 : ℚ), 10) ((0 : ℚ), 1) p = true ∧
        maskPred none p = false) := by
  refine ⟨pos_list_spec.1 1 _ _ none (some [1]),
    pos_list_spec.2.1 1 _ _ none [1],
    pos_list_spec.2.2.1 1 _ _ none [1] [2, 3] (by norm_num),
    pos_list_spec.2.2.2.1 3 _ _ none [1, 2] [3, 4] (by norm_num) (by norm_num),
    pos_list_spec.2.2.2.2 1 ((10 : ℚ), 10) ((0 : ℚ), 1) none [2, 3] [4, 5]
      (by norm_num) (by norm_num)⟩

/-- C9: `CircularGaussianPSF.evaluate` equals
`flux * exp(-((x - x_0)^2 + (y - y_0)^2) / (2 sigma^2))` for every input, and
at the peak `(x_0, y_0)` (for a nonzero width) its value is exactly `flux`:
the `flux` parameter is the peak amplitude of an un-normalized Gaussian, not
an integrated flux. -/
theorem CircularGaussianPSF_evaluate_spec (x y flux x_0 y_0 sigma : ℝ)
    (hsig : sigma ≠ 0) :
    CircularGaussianPSF_evaluate x y flux x_0 y_0 sigma =
      flux * Real.exp (-((x - x_0) ^ 2 + (y - y_0) ^ 2) / (2 * sigma ^ 2)) ∧
    CircularGaussianPSF_evaluate x_0 y_0 flux x_0 y_0 sigma = flux := by
  refine ⟨rfl, ?_⟩
  unfold CircularGaussianPSF_evaluate
  simp

/-- C9 (witness): the Gaussian PSF model at concrete inputs. -/
theorem CircularGaussianPSF_evaluate_witness :
    (1 : ℝ) ≠ 0 ∧
    (CircularGaussianPSF_evaluate 1 2 3 0 0 1 =
        3 * Real.exp (-((1 - 0) ^ 2 + (2 - 0) ^ 2) / (2 * 1 ^ 2)) ∧
      CircularGaussianPSF_evaluate 0 0 3 0 0 1 = 3) :=
  ⟨one_ne_zero, CircularGaussianPSF_evaluate_spec 1 2 3 0 0 1 one_ne_zero⟩

/-- C7: with a supplied per-pixel uncertainty, `fake_data` masks exactly the
NaN pixels and back-derives the exposure time as `(e_data / NEFD)^(-2)`;
with a generated exposure-time footprint, pixels below the 1-second
threshold are masked with their time set to NaN, and the surviving pixels
get uncertainty `NEFD * time^(-1/2)`. -/
theorem fake_data_noise_model (NEFD : ℝ) (e : Option ℝ) (shape : ℕ × ℕ)
    (tf g2s x y : ℝ) (raw : ℝ) (hraw : 0 < raw) :
    (fakeData_from_e NEFD e).1 = e.isNone ∧
    (fakeData_from_e NEFD e).2 = (e.map fun ev => ((ev / NEFD) ^ 2)⁻¹) ∧
    0 < gaussTimeRaw shape tf g2s x y ∧
    ((fakeData_gen NEFD raw).1 = true ↔ raw < timeThreshold) ∧
    (fakeData_gen NEFD raw).2.1 =
      (if raw < timeThreshold then none else some raw) ∧
    (fakeData_gen NEFD raw).2.2 =
      (if raw < timeThreshold then none
        else some (NEFD * (Real.sqrt raw)⁻¹)) := by
  have hexp : ∀ z : ℝ, z ^ ((-1 : ℝ) / 0.5) = (z ^ 2)⁻¹ := by
    intro z
    rw [show ((-1 : ℝ) / 0.5) = ((-2 : ℤ) : ℝ) by norm_num, Real.rpow_intCast, zpow_neg,
      zpow_two, sq]
  have hhalf : raw ^ (-(0.5) : ℝ) = (Real.sqrt raw)⁻¹ := by
    rw [show (-(0.5) : ℝ) = -(1 / 2) by norm_num, Real.rpow_neg hraw.le,
      Real.sqrt_eq_rpow]
  refine ⟨rfl, ?_, Real.exp_pos _, ?_, ?_, ?_⟩
  · unfold fakeData_from_e
    cases e with
    | none => rfl
    | some ev => simp [hexp]
  · unfold fakeData_gen
    by_cases hlt : raw < timeThreshold <;> simp [hlt]
  · unfold fakeData_gen
    by_cases hlt : raw < timeThreshold <;> simp [hlt]
  · unfold fakeData_gen
    by_cases hlt : raw < timeThreshold <;> simp [hlt, hhalf]

/-- C7 (witness): the noise model at a supplied uncertainty of `2`, a
`NEFD` of `1`, and the uniform footprint time `raw = 1` hour. -/
theorem fake_data_noise_model_witness :
    (0 : ℝ) < 1 ∧
    ((fakeData_from_e 1 (some 2)).1 = (some (2 : ℝ)).isNone ∧
      (fakeData_from_e 1 (some 2)).2 = ((some (2 : ℝ)).map fun ev => ((ev / 1) ^ 2)⁻¹) ∧
      0 < gaussTimeRaw (2, 2) 1 1 0 0 ∧
      ((fakeData_gen 1 1).1 = true ↔ (1 : ℝ) < timeThreshold) ∧
      (fakeData_gen 1 1).2.1 = (if (1 : ℝ) < timeThreshold then none else some 1) ∧
      (fakeData_gen 1 1).2.2 =
        (if (1 : ℝ) < timeThreshold then none else some (1 * (Real.sqrt 1)⁻¹))) :=
  ⟨by norm_num, fake_data_noise_model 1 (some 2) (2, 2) 1 1 0 0 1 (by norm_num)⟩

/-- C5: the jackknife combined uncertainty follows the inverse-variance
formula independently of the draw signs, and on `N` equal-noise maps the
`n=None` weighted average has per-pixel uncertainty `noise_level / sqrt N`.
(Spec-modelled: `analysis.py` is absent from the sources.) -/
theorem jackknife_average_uncertainty :
    (∀ (maps : List (ℝ × ℝ)) (signs : List ℝ),
      (jk_average maps signs).2 = jk_uncertainty (maps.map Prod.snd)) ∧
    (∀ (sigma : ℝ) (N : ℕ), 0 < sigma → 0 < N →
      jk_uncertainty (List.replicate N sigma) = sigma / Real.sqrt N) := by
  constructor
  · intro maps signs
    simp [jk_average, jk_uncertainty, List.map_map, Function.comp_def]
  · intro sigma N hsig hN
    unfold jk_uncertainty
    rw [List.map_replicate, List.sum_replicate, nsmul_eq_mul, mul_one_div,
      Real.sqrt_div (by positivity) _, Real.sqrt_sq hsig.le, inv_div]

/-- C5 (witness): four equal-noise maps of noise level `2`. -/
theorem jackknife_average_uncertainty_witness :
    (0 : ℝ) < 2 ∧ 0 < 4 ∧
    jk_uncertainty (List.replicate 4 (2 : ℝ)) = 2 / Real.sqrt 4 :=
  ⟨by norm_num, by norm_num,
    jackknife_average_uncertainty.2 2 4 (by norm_num) (by norm_num)⟩

/-- Discarded (unreadable) inputs and kept (valid) inputs partition the
jackknife file list. -/
theorem jackknife_none_count {α : Type} (files : List (Option α)) :
    (files.filter fun f => f.isNone).length + (files.filterMap id).length =
      files.length := by
  induction files with
  | nil => rfl
  | cons f rest ih =>
    cases f with
    | none => simpa [List.filter_cons, List.filterMap_cons] using by omega
    | some v => simpa [List.filter_cons, List.filterMap_cons] using by omega

/-- C6: `jackknife` emits one warning per unreadable input file (the warning
count plus the valid count equals the input count) and discards it, then
fails with an assertion-style error when zero or one valid maps remain, and
proceeds with the valid maps when at least two remain.
(Spec-modelled: `analysis.py` is absent from the sources.) -/
theorem jackknife_setup_spec {α : Type} (files : List (Option α)) :
    ((jackknife_setup files).2 + (files.filterMap id).length = files.length) ∧
    ((files.filterMap id).length ≤ 1 →
      ∃ msg, (jackknife_setup files).1 = .error msg) ∧
    (2 ≤ (files.filterMap id).length →
      (jackknife_setup files).1 = .ok (files.filterMap id)) := by
  refine ⟨jackknife_none_count files, ?_, ?_⟩
  · intro h
    have hlt : ¬ 2 ≤ (files.filterMap id).length := by omega
    refine ⟨"jackknife needs at least two valid maps", ?_⟩
    simp only [jackknife_setup, if_neg hlt]
  · intro h
    simp only [jackknife_setup, if_pos h]

/-- C6 (witness): one unreadable file among two leaves one valid map (error);
among three it leaves two valid maps (ok). -/
theorem jackknife_setup_spec_witness :
    ((jackknife_setup [some (1 : ℚ), none]).2 +
        (([some (1 : ℚ), none]).filterMap id).length =
      ([some (1 : ℚ), none]).length) ∧
    (∃ msg, (jackknife_setup [some (1 : ℚ), none]).1 = .error msg) ∧
    ((jackknife_setup [some (1 : ℚ), some 2, none]).1 =
      .ok (([some (1 : ℚ), some 2, none]).filterMap id)) := by
  refine ⟨(jackknife_setup_spec [some (1 : ℚ), none]).1,
    (jackknife_setup_spec [some (1 : ℚ), none]).2.1 (by simp [List.filterMap_cons]),
    (jackknife_setup_spec [some (1 : ℚ), some 2, none]).2.2
      (by simp [List.filterMap_cons])⟩

end Nikamap
